import Mathlib

/-!
Verification of the BillBreak bill-splitting core: the assignment store
(`billReducer` from src/context/bill/reducer.ts) and the share calculator
(selectors from src/context/bill/selectors.ts), shallowly embedded over ℚ.
JavaScript numbers are modelled as exact rationals; `Math.floor`,
`Math.round`, `Math.min`, `Math.max` and the `%` operator are given as
explicit functions on ℚ.
-/

namespace BillBreak

/-- JavaScript Math.round: floor(x + 1/2), rounding halves up. -/
def jsRound (x : ℚ) : ℤ := ⌊x + 1/2⌋

/-- JavaScript truncation toward zero (used by the % operator). -/
def jsTrunc (x : ℚ) : ℤ := if 0 ≤ x then ⌊x⌋ else ⌈x⌉

/-- JavaScript remainder a % b (sign follows the dividend). -/
def jsMod (a b : ℚ) : ℚ := a - b * jsTrunc (a / b)

-- -------- Data model (src/types/index.ts) --------

/-- The four user colors of the palette (UserColors in src/types/index.ts). -/
inductive UserColor where
  | emerald
  | blue
  | purple
  | rose
deriving DecidableEq, Repr, Inhabited

/-- USER_COLOR_LIST from src/types/index.ts. -/
def USER_COLOR_LIST : List UserColor :=
  [UserColor.emerald, UserColor.blue, UserColor.purple, UserColor.rose]

/-- User (participant) record. -/
structure User where
  id : String
  name : String
  color : UserColor
deriving DecidableEq, Repr

/-- ItemAssignment: a claim by one user on some quantity of one item. -/
structure ItemAssignment where
  userId : String
  quantity : ℚ
deriving DecidableEq, Repr

/-- BillItem: one line of the bill. `price` is the price per unit. -/
structure BillItem where
  id : String
  name : String
  price : ℚ
  quantity : ℚ
  assignments : List ItemAssignment
deriving DecidableEq, Repr

/-- BillStatus navigation states. -/
inductive BillStatus where
  | upload
  | assign
  | results
deriving DecidableEq, Repr

/-- BillState: the aggregate root held by the store. -/
structure BillState where
  currentStatus : BillStatus
  items : List BillItem
  users : List User
  taxAmount : ℚ
  tipAmount : ℚ
  selectedItemId : Option String
deriving DecidableEq, Repr

/-- One entry of a user's `items` list inside a UserShare. -/
structure ShareItem where
  item : BillItem
  quantity : ℚ
  shareAmount : ℚ
deriving DecidableEq, Repr

/-- UserShare: computed breakdown of what one user owes. -/
structure UserShare where
  user : User
  subtotal : ℚ
  taxShare : ℚ
  tipShare : ℚ
  total : ℚ
  itemCount : ℕ
  items : List ShareItem
deriving DecidableEq, Repr

-- -------- Helper functions (src/types/index.ts) --------

/-- getAssignedQuantity: total assigned quantity for an item
(reduce with initial accumulator 0). -/
def getAssignedQuantity (item : BillItem) : ℚ :=
  item.assignments.foldl (fun sum a => sum + a.quantity) 0

/-- getRemainingQuantity: remaining unassigned quantity. -/
def getRemainingQuantity (item : BillItem) : ℚ :=
  item.quantity - getAssignedQuantity item

/-- isItemFullyAssigned from src/types/index.ts. -/
def isItemFullyAssigned (item : BillItem) : Bool :=
  item.quantity ≤ getAssignedQuantity item

/-- getUserAssignedQuantity from src/types/index.ts. -/
def getUserAssignedQuantity (item : BillItem) (userId : String) : ℚ :=
  match item.assignments.find? (fun a => a.userId == userId) with
  | some a => a.quantity
  | none => 0

/-- getNextUserColor from src/context/bill/helpers.ts: the first unused
palette color, else cycle by count. -/
def getNextUserColor (existingUsers : List User) : UserColor :=
  let usedColors := existingUsers.map (fun u => u.color)
  match USER_COLOR_LIST.find? (fun c => !(usedColors.contains c)) with
  | some c => c
  | none => USER_COLOR_LIST.getD (existingUsers.length % USER_COLOR_LIST.length) UserColor.emerald

/-- initialState from src/context/bill/initialState.ts. -/
def initialState : BillState :=
  { currentStatus := BillStatus.upload
    items := []
    users := []
    taxAmount := 0
    tipAmount := 0
    selectedItemId := none }

-- -------- Actions (src/context/bill/types.ts) --------

/-- Partial<BillItem> for UPDATE_ITEM: provided fields override by spread. -/
structure BillItemUpdates where
  id : Option String := none
  name : Option String := none
  price : Option ℚ := none
  quantity : Option ℚ := none
  assignments : Option (List ItemAssignment) := none
deriving DecidableEq, Repr

/-- Partial<User> for UPDATE_USER. -/
structure UserUpdates where
  id : Option String := none
  name : Option String := none
  color : Option UserColor := none
deriving DecidableEq, Repr

/-- BillAction, the discriminated union of store operations.
`generateId()` (Date.now + Math.random) is nondeterministic at the JS level,
so the generated id is carried as action data (`genId`). -/
inductive BillAction where
  | setItems (items : List BillItem)
  | addItem (genId : String) (name : String) (price : ℚ) (quantity : ℚ)
  | removeItem (itemId : String)
  | updateItem (itemId : String) (updates : BillItemUpdates)
  | addUser (genId : String) (name : String)
  | addUserWithColor (genId : String) (name : String) (color : UserColor)
  | setUsers (users : List User)
  | removeUser (userId : String)
  | updateUser (userId : String) (updates : UserUpdates)
  | assignItem (itemId : String) (userId : String) (quantity : ℚ)
  | unassignItem (itemId : String) (userId : String)
  | toggleItemAssignment (itemId : String) (userId : String)
  | assignAllToItem (itemId : String)
  | unassignAllFromItem (itemId : String)
  | setTax (amount : ℚ)
  | setTip (amount : ℚ)
  | setStatus (status : BillStatus)
  | selectItem (itemId : Option String)
  | reset
  | loadDemo (items : List BillItem) (users : List User) (taxAmount : ℚ)
deriving Repr

-- -------- Reducer (src/context/bill/reducer.ts) --------

/-- Shallow merge { ...item, ...updates } for UPDATE_ITEM. -/
def applyItemUpdates (item : BillItem) (u : BillItemUpdates) : BillItem :=
  { id := u.id.getD item.id
    name := u.name.getD item.name
    price := u.price.getD item.price
    quantity := u.quantity.getD item.quantity
    assignments := u.assignments.getD item.assignments }

/-- Shallow merge { ...user, ...updates } for UPDATE_USER. -/
def applyUserUpdates (user : User) (u : UserUpdates) : User :=
  { id := u.id.getD user.id
    name := u.name.getD user.name
    color := u.color.getD user.color }

/-- The per-item update of the ASSIGN_ITEM case: upsert the (item, user)
assignment record to the given quantity. -/
def assignItemUpdate (itemId userId : String) (quantity : ℚ) (item : BillItem) : BillItem :=
  if item.id == itemId then
    match item.assignments.find? (fun a => a.userId == userId) with
    | some _ =>
      { item with assignments :=
          item.assignments.map (fun a => if a.userId == userId then { a with quantity := quantity } else a) }
    | none =>
      { item with assignments := item.assignments ++ [{ userId := userId, quantity := quantity }] }
  else item

/-- The per-item update of the TOGGLE_ITEM_ASSIGNMENT case. -/
def toggleItemUpdate (itemId userId : String) (item : BillItem) : BillItem :=
  if item.id == itemId then
    match item.assignments.find? (fun a => a.userId == userId) with
    | some _ =>
      { item with assignments := item.assignments.filter (fun a => !(a.userId == userId)) }
    | none =>
      let remaining := getRemainingQuantity item
      let quantityToAssign := if item.quantity = 1 then 1 else max 1 remaining
      { item with assignments := item.assignments ++ [{ userId := userId, quantity := quantityToAssign }] }
  else item

/-- The assignment list built by ASSIGN_ALL_TO_ITEM once userCount ≠ 0. -/
def assignAllAssignments (users : List User) (item : BillItem) : List ItemAssignment :=
  if (users.length : ℚ) ≤ item.quantity then
    let baseQty : ℚ := (⌊item.quantity / (users.length : ℚ)⌋ : ℤ)
    let remainder : ℚ := jsMod item.quantity (users.length : ℚ)
    (users.enum).map (fun p =>
      { userId := p.2.id, quantity := baseQty + (if (p.1 : ℚ) < remainder then 1 else 0) })
  else
    users.map (fun u => { userId := u.id, quantity := 1 })

/-- The per-item update of the ASSIGN_ALL_TO_ITEM case. -/
def assignAllUpdateItem (users : List User) (itemId : String) (item : BillItem) : BillItem :=
  if item.id == itemId then
    if users.length = 0 then item
    else { item with assignments := assignAllAssignments users item }
  else item

/-- billReducer from src/context/bill/reducer.ts. -/
def billReducer (state : BillState) (action : BillAction) : BillState :=
  match action with
  | .setItems payload => { state with items := payload }
  | .addItem genId name price quantity =>
    { state with items := state.items ++
        [{ id := genId, name := name, price := price, quantity := quantity, assignments := [] }] }
  | .removeItem itemId =>
    { state with
        items := state.items.filter (fun item => !(item.id == itemId))
        selectedItemId := if state.selectedItemId = some itemId then none else state.selectedItemId }
  | .updateItem itemId updates =>
    { state with items := state.items.map (fun item =>
        if item.id == itemId then applyItemUpdates item updates else item) }
  | .addUser genId name =>
    { state with users := state.users ++
        [{ id := genId, name := name, color := getNextUserColor state.users }] }
  | .addUserWithColor genId name color =>
    { state with users := state.users ++ [{ id := genId, name := name, color := color }] }
  | .setUsers payload => { state with users := payload }
  | .removeUser userId =>
    { state with
        users := state.users.filter (fun user => !(user.id == userId))
        items := state.items.map (fun item =>
          { item with assignments := item.assignments.filter (fun a => !(a.userId == userId)) }) }
  | .updateUser userId updates =>
    { state with users := state.users.map (fun user =>
        if user.id == userId then applyUserUpdates user updates else user) }
  | .assignItem itemId userId quantity =>
    { state with items := state.items.map (assignItemUpdate itemId userId quantity) }
  | .unassignItem itemId userId =>
    { state with items := state.items.map (fun item =>
        if item.id == itemId then
          { item with assignments := item.assignments.filter (fun a => !(a.userId == userId)) }
        else item) }
  | .toggleItemAssignment itemId userId =>
    { state with items := state.items.map (toggleItemUpdate itemId userId) }
  | .assignAllToItem itemId =>
    { state with items := state.items.map (assignAllUpdateItem state.users itemId) }
  | .unassignAllFromItem itemId =>
    { state with items := state.items.map (fun item =>
        if item.id == itemId then { item with assignments := [] } else item) }
  | .setTax amount => { state with taxAmount := amount }
  | .setTip amount => { state with tipAmount := amount }
  | .setStatus status => { state with currentStatus := status }
  | .selectItem itemId => { state with selectedItemId := itemId }
  | .reset => initialState
  | .loadDemo items users taxAmount =>
    { initialState with items := items, users := users, taxAmount := taxAmount }

/-- Fold a list of actions through the reducer. -/
def applyActions (state : BillState) (actions : List BillAction) : BillState :=
  actions.foldl billReducer state

/-- Every assignment record in the state has non-negative quantity. -/
def NonnegAssignments (s : BillState) : Prop :=
  ∀ item ∈ s.items, ∀ a ∈ item.assignments, 0 ≤ a.quantity

/-- The action is one of ASSIGN_ITEM, UNASSIGN_ITEM,
TOGGLE_ITEM_ASSIGNMENT (the operations quantified over by the spec's
invariant on assigned quantities). -/
def IsAUT : BillAction → Prop
  | BillAction.assignItem _ _ _ => True
  | BillAction.unassignItem _ _ => True
  | BillAction.toggleItemAssignment _ _ => True
  | _ => False

/-- The action's quantity argument, if any, is non-negative. -/
def ActionQuantityNonneg : BillAction → Prop
  | BillAction.assignItem _ _ q => 0 ≤ q
  | _ => True

/-- The ids of a user list. -/
def userIds (users : List User) : List String := users.map (fun u => u.id)

/-- Referential integrity: no assignment record references a participant id
absent from the users list. -/
def StateRefIntegrity (s : BillState) : Prop :=
  ∀ item ∈ s.items, ∀ a ∈ item.assignments, a.userId ∈ userIds s.users

/-- The action's payload neither introduces nor orphans participant
references: bulk payloads (SET_ITEMS, SET_USERS, LOAD_DEMO, UPDATE_ITEM
with an assignments field) are internally consistent, assignment-creating
actions name an existing participant, and UPDATE_USER does not change an
id. The UI only ever issues such actions, since it only references ids it
currently displays. -/
def ConsistentAction (s : BillState) : BillAction → Prop
  | BillAction.setItems its =>
      ∀ item ∈ its, ∀ a ∈ item.assignments, a.userId ∈ userIds s.users
  | BillAction.updateItem _ upd =>
      ∀ l, upd.assignments = some l → ∀ a ∈ l, a.userId ∈ userIds s.users
  | BillAction.setUsers us =>
      ∀ item ∈ s.items, ∀ a ∈ item.assignments, a.userId ∈ userIds us
  | BillAction.updateUser _ upd => upd.id = none
  | BillAction.assignItem _ userId _ => userId ∈ userIds s.users
  | BillAction.toggleItemAssignment _ userId => userId ∈ userIds s.users
  | BillAction.loadDemo its us _ =>
      ∀ item ∈ its, ∀ a ∈ item.assignments, a.userId ∈ userIds us
  | _ => True

/-- All actions of the trace are consistent for the state they hit. -/
def ConsistentTrace : BillState → List BillAction → Prop
  | _, [] => True
  | s, act :: rest => ConsistentAction s act ∧ ConsistentTrace (billReducer s act) rest

-- -------- Selectors (src/context/bill/selectors.ts, current version) --------

/-- selectAssignmentProgress: percentage [0,100] of covered quantity, where a
shared item counts at most its own quantity (the min clamp). -/
def selectAssignmentProgress (state : BillState) : ℤ :=
  if state.items.length = 0 then 0
  else
    let totalQuantity := state.items.foldl (fun sum item => sum + item.quantity) 0
    let coveredQuantity :=
      state.items.foldl (fun sum item => sum + min (getAssignedQuantity item) item.quantity) 0
    jsRound ((coveredQuantity / totalQuantity) * 100)

/-- selectSubtotal: Σ price × quantity over all items. -/
def selectSubtotal (state : BillState) : ℚ :=
  state.items.foldl (fun sum item => sum + item.price * item.quantity) 0

/-- selectGrandTotal: subtotal + tax + tip. -/
def selectGrandTotal (state : BillState) : ℚ :=
  selectSubtotal state + state.taxAmount + state.tipAmount

/-- The body of the `state.items.forEach` loop of selectUserShares: the
ShareItem pushed for `user` on `item`, when any.  A record is counted only if
`find` locates it and its quantity is positive; the share is proportional:
itemTotalValue × (assignment.quantity / totalAssigned). -/
def shareItemFor (user : User) (item : BillItem) : Option ShareItem :=
  match item.assignments.find? (fun a => a.userId == user.id) with
  | some a =>
    if 0 < a.quantity then
      let totalAssigned := getAssignedQuantity item
      let itemTotalValue := item.price * item.quantity
      some { item := item, quantity := a.quantity
             shareAmount := itemTotalValue * (a.quantity / totalAssigned) }
    else none
  | none => none

/-- selectUserShares: per-user breakdown with proportional tax/tip. -/
def selectUserShares (state : BillState) : List UserShare :=
  let subtotal := selectSubtotal state
  state.users.map (fun user =>
    let userItems := state.items.filterMap (shareItemFor user)
    let userSubtotal := userItems.foldl (fun sum ui => sum + ui.shareAmount) 0
    let shareRatio := if 0 < subtotal then userSubtotal / subtotal else 0
    let taxShare := state.taxAmount * shareRatio
    let tipShare := state.tipAmount * shareRatio
    { user := user
      subtotal := userSubtotal
      taxShare := taxShare
      tipShare := tipShare
      total := userSubtotal + taxShare + tipShare
      itemCount := userItems.length
      items := userItems })

/-- selectUserSubtotal from the current selectors file. -/
def selectUserSubtotal (state : BillState) (userId : String) : ℚ :=
  state.items.foldl (fun subtotal item =>
    match item.assignments.find? (fun a => a.userId == userId) with
    | some a =>
      if 0 < a.quantity then
        subtotal + item.price * item.quantity * (a.quantity / getAssignedQuantity item)
      else subtotal
    | none => subtotal) 0

/-- selectIsBillReady: at least one item, at least one user, and every item
has some assigned quantity (> 0). -/
def selectIsBillReady (state : BillState) : Bool :=
  if state.items.length = 0 || state.users.length = 0 then false
  else state.items.all (fun item => decide (0 < getAssignedQuantity item))

/-- selectAssignedItemCount from the current selectors file. -/
def selectAssignedItemCount (state : BillState) : ℕ :=
  (state.items.filter (fun item => decide (0 < getAssignedQuantity item))).length

namespace SelectorsPrev

/-! The earlier revision of the selectors file (the per-unit pricing
variant): a user pays `price × own quantity` for each claimed item, and
readiness demands full coverage. -/

/-- The ShareItem pushed for `user` on `item` in the earlier selectUserShares:
per-unit pricing, shareAmount = price × assignment.quantity. -/
def shareItemFor (user : User) (item : BillItem) : Option ShareItem :=
  match item.assignments.find? (fun a => a.userId == user.id) with
  | some a =>
    if 0 < a.quantity then
      some { item := item, quantity := a.quantity, shareAmount := item.price * a.quantity }
    else none
  | none => none

/-- The earlier selectUserShares (per-unit pricing variant). -/
def selectUserShares (state : BillState) : List UserShare :=
  let subtotal := selectSubtotal state
  state.users.map (fun user =>
    let userItems := state.items.filterMap (SelectorsPrev.shareItemFor user)
    let userSubtotal := userItems.foldl (fun sum ui => sum + ui.shareAmount) 0
    let shareRatio := if 0 < subtotal then userSubtotal / subtotal else 0
    let taxShare := state.taxAmount * shareRatio
    let tipShare := state.tipAmount * shareRatio
    { user := user
      subtotal := userSubtotal
      taxShare := taxShare
      tipShare := tipShare
      total := userSubtotal + taxShare + tipShare
      itemCount := userItems.length
      items := userItems })

/-- The earlier selectIsBillReady: every item fully covered. -/
def selectIsBillReady (state : BillState) : Bool :=
  if state.items.length = 0 || state.users.length = 0 then false
  else state.items.all (fun item => decide (item.quantity ≤ getAssignedQuantity item))

end SelectorsPrev

-- -------- Concrete example data --------

/-- One pizza: unit price 500, quantity 1, nothing assigned yet. -/
def pizzaItem : BillItem :=
  { id := "i1", name := "Pizza", price := 500, quantity := 1, assignments := [] }

/-- A four-user state with one shared pizza of unit price 500 and quantity 1. -/
def pizzaState : BillState :=
  { currentStatus := BillStatus.assign
    items := [pizzaItem]
    users := [{ id := "u1", name := "Alice", color := UserColor.emerald },
              { id := "u2", name := "Bob", color := UserColor.blue },
              { id := "u3", name := "Carol", color := UserColor.purple },
              { id := "u4", name := "Dave", color := UserColor.rose }]
    taxAmount := 0
    tipAmount := 0
    selectedItemId := none }

/-- A five-coke item split 3/2 between two users. -/
def cokeItem : BillItem :=
  { id := "i1", name := "Coke", price := 60, quantity := 5
    assignments := [{ userId := "u1", quantity := 3 }, { userId := "u2", quantity := 2 }] }

/-- A two-user state holding `cokeItem`, with tax 10 and tip 5. -/
def cokeState : BillState :=
  { currentStatus := BillStatus.assign
    items := [cokeItem]
    users := [{ id := "u1", name := "Alice", color := UserColor.emerald },
              { id := "u2", name := "Bob", color := UserColor.blue }]
    taxAmount := 10
    tipAmount := 5
    selectedItemId := none }

/-- A fully-assigned state whose only item is free (price 0) but which
carries a tax amount of 100. -/
def zeroPriceState : BillState :=
  { currentStatus := BillStatus.assign
    items := [{ id := "i1", name := "Water", price := 0, quantity := 1
                assignments := [{ userId := "u1", quantity := 1 }] }]
    users := [{ id := "u1", name := "Alice", color := UserColor.emerald }]
    taxAmount := 100
    tipAmount := 0
    selectedItemId := none }

-- -------- General lemmas about the embedded primitives --------

theorem foldl_add_eq {α : Type} (f : α → ℚ) (l : List α) : ∀ init : ℚ,
    l.foldl (fun s x => s + f x) init = init + (l.map f).sum := by
  induction l with
  | nil => intro init; simp
  | cons x t ih => intro init; simp [ih, add_assoc]

theorem getAssignedQuantity_eq_sum (item : BillItem) :
    getAssignedQuantity item = (item.assignments.map (fun a => a.quantity)).sum := by
  simpa [getAssignedQuantity] using foldl_add_eq (fun a : ItemAssignment => a.quantity) item.assignments 0

theorem selectSubtotal_eq_sum (s : BillState) :
    selectSubtotal s = (s.items.map (fun item => item.price * item.quantity)).sum := by
  simpa [selectSubtotal] using
    foldl_add_eq (fun item : BillItem => item.price * item.quantity) s.items 0

theorem sum_map_add {α : Type} (f g : α → ℚ) (l : List α) :
    (l.map (fun x => f x + g x)).sum = (l.map f).sum + (l.map g).sum := by
  induction l with
  | nil => simp
  | cons x t ih => simp [ih]; ring

theorem sum_map_sum_comm {α β : Type} (f : α → β → ℚ) (l : List α) (m : List β) :
    (l.map (fun x => (m.map (f x)).sum)).sum = (m.map (fun y => (l.map (fun x => f x y)).sum)).sum := by
  induction l with
  | nil => simp
  | cons x t ih =>
    simp only [List.map_cons, List.sum_cons, ih, ← sum_map_add]

theorem sum_range_map (f : ℕ → ℚ) (n : ℕ) :
    ((List.range n).map f).sum = ∑ i in Finset.range n, f i := by
  induction n with
  | zero => simp
  | succ k ih => simp [List.range_succ, Finset.sum_range_succ, ih]

theorem sum_filterMap_shareAmount {α : Type} (f : α → Option ShareItem) (l : List α) :
    ((l.filterMap f).map (fun si => si.shareAmount)).sum
      = (l.map (fun x => ((f x).map (fun si => si.shareAmount)).getD 0)).sum := by
  induction l with
  | nil => simp
  | cons x t ih =>
    cases hfx : f x <;> simp [List.filterMap_cons, hfx, ih]

theorem find?_erase {α : Type} [DecidableEq α] (p : α → Bool) (a : α) (l : List α)
    (hpa : p a = false) : (l.erase a).find? p = l.find? p := by
  induction l with
  | nil => simp
  | cons hd tl ih =>
    rw [List.erase_cons]
    by_cases h : hd = a
    · subst h
      simp only [beq_self_eq_true, if_pos]
      rw [List.find?_cons_of_neg _ (by simp [hpa])]
    · rw [if_neg (by simp [h])]
      cases hph : p hd
      · rw [List.find?_cons_of_neg _ (by simp [hph]), List.find?_cons_of_neg _ (by simp [hph]), ih]
      · rw [List.find?_cons_of_pos _ hph, List.find?_cons_of_pos _ hph]

/-- Summing, over a duplicate-free user list, the value `g` of the first
assignment record found for each user is the same as summing `g` over all
records, provided records have duplicate-free user ids all drawn from the
user list. -/
theorem sum_find_over_users (g : ItemAssignment → ℚ) (users : List User) :
    ∀ rs : List ItemAssignment,
      (users.map (fun u => u.id)).Nodup →
      (rs.map (fun a => a.userId)).Nodup →
      (∀ a ∈ rs, a.userId ∈ users.map (fun u => u.id)) →
      (users.map (fun u => ((rs.find? (fun a => a.userId == u.id)).map g).getD 0)).sum
        = (rs.map g).sum := by
  induction users with
  | nil =>
    intro rs _ _ hsub
    have : rs = [] := by
      cases rs with
      | nil => rfl
      | cons a t => exact absurd (hsub a (by simp)) (by simp)
    simp [this]
  | cons u us ih =>
    intro rs hu hr hsub
    have hu' : (us.map (fun u => u.id)).Nodup := (List.nodup_cons.mp hu).2
    have huid : u.id ∉ us.map (fun u => u.id) := (List.nodup_cons.mp hu).1
    cases hfind : rs.find? (fun a => a.userId == u.id) with
    | none =>
      have hnone := List.find?_eq_none.mp hfind
      have hsub' : ∀ a ∈ rs, a.userId ∈ us.map (fun u => u.id) := by
        intro a ha
        have := hsub a ha
        simp only [List.map_cons, List.mem_cons] at this
        rcases this with h | h
        · exact absurd (by simp [h]) (hnone a ha)
        · exact h
      simp only [List.map_cons, List.sum_cons, hfind, Option.map_none', Option.getD_none, zero_add]
      exact ih rs hu' hr hsub'
    | some a =>
      have hamem : a ∈ rs := List.mem_of_find?_eq_some hfind
      have haid : a.userId = u.id := by
        have := List.find?_some hfind
        simpa using this
      have hrs_nodup : rs.Nodup := List.Nodup.of_map _ hr
      have hperm : rs.Perm (a :: rs.erase a) := List.perm_cons_erase hamem
      have hsum_rs : (rs.map g).sum = g a + ((rs.erase a).map g).sum := by
        have := (hperm.map g).sum_eq
        simpa using this
      have herase_sub : (rs.erase a).Sublist rs := List.erase_sublist a rs
      have hr' : ((rs.erase a).map (fun a => a.userId)).Nodup :=
        List.Nodup.sublist (herase_sub.map _) hr
      have hmem_erase : ∀ b ∈ rs.erase a, b ∈ rs ∧ b ≠ a := by
        intro b hb
        have := (List.Nodup.mem_erase_iff hrs_nodup).mp hb
        exact ⟨this.2, this.1⟩
      have hid_erase : ∀ b ∈ rs.erase a, b.userId ≠ u.id := by
        intro b hb heq
        obtain ⟨hbrs, hbne⟩ := hmem_erase b hb
        exact hbne (List.inj_on_of_nodup_map hr hbrs hamem (heq.trans haid.symm))
      have hsub' : ∀ b ∈ rs.erase a, b.userId ∈ us.map (fun u => u.id) := by
        intro b hb
        have := hsub b (hmem_erase b hb).1
        simp only [List.map_cons, List.mem_cons] at this
        rcases this with h | h
        · exact absurd h (hid_erase b hb)
        · exact h
      have hfind_eq : ∀ v : User, v.id ≠ u.id →
          rs.find? (fun a => a.userId == v.id) = (rs.erase a).find? (fun a => a.userId == v.id) := by
        intro v hv
        exact (find?_erase _ a rs (by simp [haid, hv.symm])).symm
      have hmap_eq :
          us.map (fun v => ((rs.find? (fun a => a.userId == v.id)).map g).getD 0)
            = us.map (fun v => (((rs.erase a).find? (fun a => a.userId == v.id)).map g).getD 0) := by
        apply List.map_congr_left
        intro v hv
        have hvne : v.id ≠ u.id := by
          intro heq
          exact huid (heq ▸ List.mem_map.mpr ⟨v, hv, rfl⟩)
        rw [hfind_eq v hvne]
      simp only [List.map_cons, List.sum_cons, hfind, Option.map_some', Option.getD_some]
      rw [hmap_eq, ih (rs.erase a) hu' hr' hsub', hsum_rs]

/-- The j-th entry of selectUserShares belongs to the j-th user and lists
exactly the ShareItems that `shareItemFor` produces for that user. -/
theorem userShares_getElem (s : BillState) (j : ℕ) (u : User) (hj : s.users[j]? = some u) :
    ∃ e : UserShare, (selectUserShares s)[j]? = some e ∧ e.user = u ∧
      e.items = s.items.filterMap (shareItemFor u) := by
  unfold selectUserShares
  rw [List.getElem?_map, hj]
  exact ⟨_, rfl, rfl, rfl⟩

/-- An item whose assignment records are one quantity-1 record per user has
total assigned quantity equal to the user count. -/
theorem assigned_of_unit_records (users : List User) (item : BillItem)
    (h : item.assignments = users.map (fun u => { userId := u.id, quantity := 1 })) :
    getAssignedQuantity item = (users.length : ℚ) := by
  rw [getAssignedQuantity_eq_sum, h, List.map_map]
  have hfun : ((fun a : ItemAssignment => a.quantity) ∘
      (fun u : User => ({ userId := u.id, quantity := 1 } : ItemAssignment)))
      = fun _ : User => (1 : ℚ) := rfl
  rw [hfun, List.map_const', List.sum_replicate]
  simp

/-- The records built by ASSIGN_ALL carry exactly the user ids, in order. -/
theorem assignAllAssignments_userIds (users : List User) (item : BillItem) :
    (assignAllAssignments users item).map (fun a => a.userId)
      = users.map (fun u => u.id) := by
  unfold assignAllAssignments
  by_cases hbr : (users.length : ℚ) ≤ item.quantity
  · rw [if_pos hbr, List.map_map]
    have hcomp : ((fun a : ItemAssignment => a.userId) ∘ (fun p : ℕ × User =>
        ({ userId := p.2.id,
           quantity := ((⌊item.quantity / (users.length : ℚ)⌋ : ℤ) : ℚ) +
             (if (p.1 : ℚ) < jsMod item.quantity (users.length : ℚ) then 1 else 0) } :
             ItemAssignment)))
        = (fun u : User => u.id) ∘ Prod.snd := rfl
    rw [hcomp, ← List.map_map, List.enum_map_snd]
  · rw [if_neg hbr, List.map_map]
    rfl

/-- shareItemFor on a found positive record yields the proportional
ShareItem. -/
theorem shareItemFor_eq_some (u : User) (item : BillItem) (a : ItemAssignment)
    (hfind : item.assignments.find? (fun r => r.userId == u.id) = some a)
    (hq : 0 < a.quantity) :
    shareItemFor u item = some { item := item, quantity := a.quantity,
                                 shareAmount := item.price * item.quantity *
                                   (a.quantity / getAssignedQuantity item) } := by
  unfold shareItemFor
  rw [hfind]
  simp [hq]

-- -------- Claim theorems --------

/-- C1: assign-all on an item whose quantity is strictly below the user
count gives every user an assignment record of quantity exactly 1, and
selectUserShares on the resulting state gives each user a shareAmount of
(price × quantity) / userCount for that item (500 × 1 / 4 = 125 in the
pizza scenario). -/
theorem assignAll_shared_unit_records_and_equal_shares
    (s : BillState) (itemId : String) (item : BillItem)
    (hmem : item ∈ s.items) (hid : item.id = itemId)
    (hne : s.users ≠ []) (hlt : item.quantity < (s.users.length : ℚ)) :
    (assignAllUpdateItem s.users itemId item).assignments
        = s.users.map (fun u => { userId := u.id, quantity := 1 }) ∧
    assignAllUpdateItem s.users itemId item
        ∈ (billReducer s (BillAction.assignAllToItem itemId)).items ∧
    (∀ (j : ℕ) (u : User), s.users[j]? = some u →
      ∃ e : UserShare,
        (selectUserShares (billReducer s (BillAction.assignAllToItem itemId)))[j]? = some e ∧
        e.user = u ∧
        ({ item := assignAllUpdateItem s.users itemId item, quantity := 1,
           shareAmount := item.price * item.quantity / (s.users.length : ℚ) } : ShareItem)
          ∈ e.items) := by
  have hlen : ¬ s.users.length = 0 := by simpa [List.length_eq_zero] using hne
  have hassign : (assignAllUpdateItem s.users itemId item).assignments
      = s.users.map (fun u => { userId := u.id, quantity := 1 }) := by
    simp [assignAllUpdateItem, hid, hlen, assignAllAssignments, not_le.mpr hlt]
  have hfields : (assignAllUpdateItem s.users itemId item).price = item.price
      ∧ (assignAllUpdateItem s.users itemId item).quantity = item.quantity := by
    constructor <;> simp [assignAllUpdateItem, hid, hlen]
  have hmem' : assignAllUpdateItem s.users itemId item
      ∈ (billReducer s (BillAction.assignAllToItem itemId)).items :=
    List.mem_map_of_mem _ hmem
  refine ⟨hassign, hmem', ?_⟩
  intro j u hj
  obtain ⟨e, he, heu, heitems⟩ :=
    userShares_getElem (billReducer s (BillAction.assignAllToItem itemId)) j u hj
  refine ⟨e, he, heu, ?_⟩
  rw [heitems]
  apply List.mem_filterMap.mpr
  refine ⟨assignAllUpdateItem s.users itemId item, hmem', ?_⟩
  have humem : u ∈ s.users := List.getElem?_mem hj
  obtain ⟨a, hfind⟩ : ∃ a, (assignAllUpdateItem s.users itemId item).assignments.find?
      (fun r => r.userId == u.id) = some a := by
    rw [hassign]
    have hsome : ((s.users.map (fun v => ({ userId := v.id, quantity := 1 } : ItemAssignment))).find?
        (fun r => r.userId == u.id)).isSome :=
      List.find?_isSome.mpr ⟨{ userId := u.id, quantity := 1 },
        List.mem_map_of_mem _ humem, by simp⟩
    exact Option.isSome_iff_exists.mp hsome
  have haq : a.quantity = 1 := by
    have hamem := List.mem_of_find?_eq_some hfind
    rw [hassign] at hamem
    obtain ⟨v, _, hva⟩ := List.mem_map.mp hamem
    rw [← hva]
  have htot : getAssignedQuantity (assignAllUpdateItem s.users itemId item)
      = (s.users.length : ℚ) := assigned_of_unit_records s.users _ hassign
  rw [shareItemFor_eq_some u _ a hfind (by rw [haq]; norm_num)]
  rw [haq, htot, hfields.1, hfields.2, mul_one_div]

/-- C2: assign-all on an item whose (integer) quantity n is at least the
user count c produces one record per user in list order; with base = n / c
and r = n % c the i-th user receives base + 1 when i < r and base otherwise,
and the record quantities sum to exactly item.quantity. The integrality of
item.quantity is the spec's own data-model invariant. -/
theorem assignAll_even_split (s : BillState) (itemId : String) (item : BillItem)
    (hmem : item ∈ s.items) (hid : item.id = itemId) (hne : s.users ≠ [])
    (n : ℕ) (hq : item.quantity = (n : ℚ))
    (hge : (s.users.length : ℚ) ≤ item.quantity) :
    assignAllUpdateItem s.users itemId item
        ∈ (billReducer s (BillAction.assignAllToItem itemId)).items ∧
    (assignAllUpdateItem s.users itemId item).assignments.length = s.users.length ∧
    (∀ (i : ℕ) (u : User), s.users[i]? = some u →
      (assignAllUpdateItem s.users itemId item).assignments[i]?
        = some { userId := u.id,
                 quantity := ((n / s.users.length : ℕ) : ℚ)
                   + (if i < n % s.users.length then 1 else 0) }) ∧
    ((assignAllUpdateItem s.users itemId item).assignments.map (fun a => a.quantity)).sum
      = item.quantity := by
  have hlen : ¬ s.users.length = 0 := by simpa [List.length_eq_zero] using hne
  have hcpos : 0 < s.users.length := Nat.pos_of_ne_zero hlen
  have hfZ : ⌊item.quantity / (s.users.length : ℚ)⌋ = ((n / s.users.length : ℕ) : ℤ) := by
    rw [hq]
    have h1 := Rat.floor_intCast_div_natCast (n : ℤ) s.users.length
    have h2 : (((n : ℤ)) : ℚ) = (n : ℚ) := by push_cast; ring
    rw [h2] at h1
    rw [h1]
    exact_mod_cast rfl
  have hmQ : jsMod item.quantity (s.users.length : ℚ) = ((n % s.users.length : ℕ) : ℚ) := by
    unfold jsMod jsTrunc
    rw [hq] at hfZ ⊢
    have hnn : (0:ℚ) ≤ (n : ℚ) / (s.users.length : ℚ) := by positivity
    rw [if_pos hnn, hfZ, Int.cast_natCast]
    have hdm : ((s.users.length * (n / s.users.length) + n % s.users.length : ℕ) : ℚ)
        = (n : ℚ) :=
      congrArg (fun k : ℕ => (k : ℚ)) (Nat.div_add_mod n s.users.length)
    push_cast at hdm
    linarith
  have hbeq : (item.id == itemId) = true := beq_iff_eq.mpr hid
  have hassignForm : (assignAllUpdateItem s.users itemId item).assignments
      = s.users.enum.map (fun p =>
          { userId := p.2.id,
            quantity := ((n / s.users.length : ℕ) : ℚ)
              + (if p.1 < n % s.users.length then 1 else 0) }) := by
    simp only [assignAllUpdateItem, assignAllAssignments, hbeq, if_true, hlen, if_false,
      hge, hfZ, hmQ, ite_true, ite_false]
    simp [Nat.cast_lt]
    intro a b _
    exact_mod_cast rfl
  have hmem' : assignAllUpdateItem s.users itemId item
      ∈ (billReducer s (BillAction.assignAllToItem itemId)).items :=
    List.mem_map_of_mem _ hmem
  have hsum : ∑ i in Finset.range s.users.length,
      (((n / s.users.length : ℕ) : ℚ) + (if i < n % s.users.length then (1:ℚ) else 0))
      = (n : ℚ) := by
    rw [Finset.sum_add_distrib, Finset.sum_const, Finset.card_range]
    have hrlt : n % s.users.length < s.users.length := Nat.mod_lt n hcpos
    have hfil : Finset.filter (fun i => i < n % s.users.length) (Finset.range s.users.length)
        = Finset.range (n % s.users.length) := by
      ext x
      simp only [Finset.mem_filter, Finset.mem_range]
      omega
    rw [Finset.sum_ite, hfil, Finset.sum_const, Finset.sum_const, Finset.card_range]
    simp only [smul_zero, add_zero, nsmul_eq_mul, mul_one]
    have hdm : ((s.users.length * (n / s.users.length) + n % s.users.length : ℕ) : ℚ)
        = (n : ℚ) :=
      congrArg (fun k : ℕ => (k : ℚ)) (Nat.div_add_mod n s.users.length)
    push_cast at hdm ⊢
    linarith
  refine ⟨hmem', ?_, ?_, ?_⟩
  · rw [hassignForm]
    simp
  · intro i u hiu
    rw [hassignForm, List.getElem?_map, List.getElem?_enum, hiu]
    rfl
  · rw [hassignForm, List.map_map]
    have hcomp : ((fun a : ItemAssignment => a.quantity) ∘ (fun p : ℕ × User =>
        ({ userId := p.2.id,
           quantity := ((n / s.users.length : ℕ) : ℚ)
             + (if p.1 < n % s.users.length then 1 else 0) } : ItemAssignment)))
        = (fun i : ℕ => ((n / s.users.length : ℕ) : ℚ)
             + (if i < n % s.users.length then (1:ℚ) else 0)) ∘ Prod.fst := rfl
    rw [hcomp, ← List.map_map, List.enum_map_fst, sum_range_map, hsum, hq]

/-- Witness for C2: five cokes among two users split 3 and 2. -/
theorem assignAll_even_split_witness :
    (assignAllUpdateItem cokeState.users "i1" cokeItem).assignments[0]?
        = some { userId := "u1", quantity := 3 } ∧
    (assignAllUpdateItem cokeState.users "i1" cokeItem).assignments[1]?
        = some { userId := "u2", quantity := 2 } ∧
    ((assignAllUpdateItem cokeState.users "i1" cokeItem).assignments.map
        (fun a => a.quantity)).sum = cokeItem.quantity := by
  have h := assignAll_even_split cokeState "i1" cokeItem (by decide) rfl (by decide) 5
    (by norm_num [cokeItem]) (by with_unfolding_all decide)
  have h0 := h.2.2.1 0 { id := "u1", name := "Alice", color := UserColor.emerald } (by decide)
  have h1 := h.2.2.1 1 { id := "u2", name := "Bob", color := UserColor.blue } (by decide)
  refine ⟨?_, ?_, h.2.2.2⟩
  · rw [h0]
    norm_num [cokeState]
  · rw [h1]
    norm_num [cokeState]

/-- Witness for C1: the pizza scenario (price 500, quantity 1, 4 users). -/
theorem assignAll_shared_witness :
    (assignAllUpdateItem pizzaState.users "i1" pizzaItem).assignments
        = pizzaState.users.map (fun u => { userId := u.id, quantity := 1 }) ∧
    ∃ e : UserShare,
      (selectUserShares (billReducer pizzaState (BillAction.assignAllToItem "i1")))[0]? = some e ∧
      e.user = { id := "u1", name := "Alice", color := UserColor.emerald } ∧
      ({ item := assignAllUpdateItem pizzaState.users "i1" pizzaItem, quantity := 1,
         shareAmount := 125 } : ShareItem) ∈ e.items := by
  have h := assignAll_shared_unit_records_and_equal_shares pizzaState "i1" pizzaItem
    (by decide) rfl (by decide) (by with_unfolding_all decide)
  refine ⟨h.1, ?_⟩
  obtain ⟨e, he, heu, hei⟩ := h.2.2 0
    { id := "u1", name := "Alice", color := UserColor.emerald } (by decide)
  have hamount : pizzaItem.price * pizzaItem.quantity / ((pizzaState.users.length : ℕ) : ℚ)
      = 125 := by
    norm_num [pizzaItem, pizzaState]
  rw [hamount] at hei
  exact ⟨e, he, heu, hei⟩

/-- C8: `selectIsBillReady` is true exactly when there is at least one item,
at least one user, and every item has total assigned quantity strictly
greater than 0 (partial assignment suffices). -/
theorem isBillReady_iff (s : BillState) :
    selectIsBillReady s = true ↔
      (s.items ≠ [] ∧ s.users ≠ [] ∧ ∀ item ∈ s.items, 0 < getAssignedQuantity item) := by
  by_cases h1 : s.items = []
  · simp [selectIsBillReady, h1]
  · by_cases h2 : s.users = []
    · simp [selectIsBillReady, h2, List.length_eq_zero]
    · have hl1 : ¬ s.items.length = 0 := by simpa [List.length_eq_zero] using h1
      have hl2 : ¬ s.users.length = 0 := by simpa [List.length_eq_zero] using h2
      simp [selectIsBillReady, hl1, hl2, h1, h2, List.all_eq_true]

/-- Witness for C8 at a concrete ready state. -/
theorem isBillReady_iff_witness : selectIsBillReady cokeState = true :=
  (isBillReady_iff cokeState).mpr
    ⟨by decide, by decide, by with_unfolding_all decide⟩

/-- C4: when an item is exactly fully assigned (total assigned =
item.quantity ≠ 0, item.quantity nonzero per the spec's data model), the
proportional share of a user with a positive assignment record reduces to
unit price × user's quantity, i.e. coincides with the earlier per-unit
selectors revision. -/
theorem proportional_share_eq_per_unit_when_fully_assigned
    (item : BillItem) (u : User) (a : ItemAssignment)
    (hfind : item.assignments.find? (fun r => r.userId == u.id) = some a)
    (hq : 0 < a.quantity)
    (hfull : getAssignedQuantity item = item.quantity)
    (hqty : item.quantity ≠ 0) :
    shareItemFor u item = some { item := item, quantity := a.quantity,
                                 shareAmount := item.price * a.quantity } ∧
    shareItemFor u item = SelectorsPrev.shareItemFor u item := by
  have hmul : item.price * item.quantity * (a.quantity / item.quantity)
      = item.price * a.quantity := by
    field_simp
    ring
  have hshare : shareItemFor u item = some { item := item, quantity := a.quantity,
                                             shareAmount := item.price * a.quantity } := by
    simp only [shareItemFor, hfind, hq, if_true, hfull, hmul]
  refine ⟨hshare, ?_⟩
  rw [hshare]
  simp only [SelectorsPrev.shareItemFor, hfind, hq, if_true]

/-- Witness for C4: the coke item (price 60, quantity 5, assigned 3 + 2). -/
theorem proportional_share_eq_per_unit_witness :
    shareItemFor { id := "u1", name := "Alice", color := UserColor.emerald } cokeItem
        = some { item := cokeItem, quantity := 3, shareAmount := 180 } ∧
    shareItemFor { id := "u1", name := "Alice", color := UserColor.emerald } cokeItem
        = SelectorsPrev.shareItemFor { id := "u1", name := "Alice", color := UserColor.emerald } cokeItem := by
  have h := proportional_share_eq_per_unit_when_fully_assigned cokeItem
    { id := "u1", name := "Alice", color := UserColor.emerald }
    { userId := "u1", quantity := 3 }
    (by decide) (by with_unfolding_all decide)
    (by with_unfolding_all decide) (by with_unfolding_all decide)
  refine ⟨?_, h.2⟩
  rw [h.1]
  norm_num [cokeItem]

/-- C5: with positive item quantities (the spec's data-model invariant) and
non-negative assignment quantities (the claim's hypothesis), progress is 0
when there are no items, never exceeds 100, and is exactly 100 when items
exist and every item's assigned quantity reaches its quantity (the min
clamp makes over-assigned items count as exactly covered). -/
theorem progress_bounds (s : BillState)
    (hq : ∀ item ∈ s.items, 0 < item.quantity)
    (ha : ∀ item ∈ s.items, ∀ a ∈ item.assignments, 0 ≤ a.quantity) :
    (s.items = [] → selectAssignmentProgress s = 0) ∧
    selectAssignmentProgress s ≤ 100 ∧
    ((s.items ≠ [] ∧ ∀ item ∈ s.items, item.quantity ≤ getAssignedQuantity item) →
      selectAssignmentProgress s = 100) := by
  have htotal : s.items.foldl (fun sum item => sum + item.quantity) 0
      = (s.items.map (fun item => item.quantity)).sum := by
    simpa using foldl_add_eq (fun item : BillItem => item.quantity) s.items 0
  have hcov : s.items.foldl (fun sum item => sum + min (getAssignedQuantity item) item.quantity) 0
      = (s.items.map (fun item => min (getAssignedQuantity item) item.quantity)).sum := by
    simpa using foldl_add_eq
      (fun item : BillItem => min (getAssignedQuantity item) item.quantity) s.items 0
  refine ⟨?_, ?_, ?_⟩
  · intro h
    simp [selectAssignmentProgress, h]
  · by_cases hnil : s.items = []
    · simp [selectAssignmentProgress, hnil]
    · have hlen : ¬ s.items.length = 0 := by simpa [List.length_eq_zero] using hnil
      have htpos : 0 < (s.items.map (fun item => item.quantity)).sum := by
        apply List.sum_pos
        · intro x hx
          obtain ⟨item, hitem, hxi⟩ := List.mem_map.mp hx
          exact hxi ▸ hq item hitem
        · simpa using hnil
      have hle : (s.items.map (fun item => min (getAssignedQuantity item) item.quantity)).sum
          ≤ (s.items.map (fun item => item.quantity)).sum :=
        List.sum_le_sum (fun item _ => min_le_right _ _)
      have hratio : (s.items.map (fun item => min (getAssignedQuantity item) item.quantity)).sum
          / (s.items.map (fun item => item.quantity)).sum ≤ 1 :=
        (div_le_one htpos).mpr hle
      have hform : selectAssignmentProgress s
          = ⌊(s.items.map (fun item => min (getAssignedQuantity item) item.quantity)).sum
              / (s.items.map (fun item => item.quantity)).sum * 100 + 1/2⌋ := by
        unfold selectAssignmentProgress jsRound
        rw [if_neg hlen]
        simp only [htotal, hcov]
      rw [hform]
      have hlt : (s.items.map (fun item => min (getAssignedQuantity item) item.quantity)).sum
          / (s.items.map (fun item => item.quantity)).sum * 100 + 1/2 < (((101 : ℤ)) : ℚ) := by
        push_cast
        linarith
      have := Int.floor_lt.mpr hlt
      omega
  · rintro ⟨hnil, hcover⟩
    have hlen : ¬ s.items.length = 0 := by simpa [List.length_eq_zero] using hnil
    have htpos : 0 < (s.items.map (fun item => item.quantity)).sum := by
      apply List.sum_pos
      · intro x hx
        obtain ⟨item, hitem, hxi⟩ := List.mem_map.mp hx
        exact hxi ▸ hq item hitem
      · simpa using hnil
    have hcovtot : (s.items.map (fun item => min (getAssignedQuantity item) item.quantity))
        = (s.items.map (fun item => item.quantity)) :=
      List.map_congr_left (fun item hitem => min_eq_right (hcover item hitem))
    have hform : selectAssignmentProgress s
        = ⌊(s.items.map (fun item => min (getAssignedQuantity item) item.quantity)).sum
            / (s.items.map (fun item => item.quantity)).sum * 100 + 1/2⌋ := by
      unfold selectAssignmentProgress jsRound
      rw [if_neg hlen]
      simp only [htotal, hcov]
    rw [hform, hcovtot, div_self (ne_of_gt htpos)]
    rw [show (1 : ℚ) * 100 + 1/2 = 201/2 by norm_num]
    rw [Int.floor_eq_iff]
    constructor <;> norm_num

/-- Witness for C5 at the fully covered two-user coke state. -/
theorem progress_bounds_witness :
    selectAssignmentProgress cokeState ≤ 100 ∧ selectAssignmentProgress cokeState = 100 := by
  have h := progress_bounds cokeState
    (by intro item hitem; simp [cokeState] at hitem; subst hitem; with_unfolding_all decide)
    (by intro item hitem a ha; simp [cokeState] at hitem; subst hitem;
        simp [cokeItem] at ha; rcases ha with h | h <;> simp [h])
  exact ⟨h.2.1, h.2.2 ⟨by decide, by
    intro item hitem
    simp [cokeState] at hitem
    subst hitem
    with_unfolding_all decide⟩⟩

/-- ASSIGN_ITEM, UNASSIGN_ITEM and TOGGLE_ITEM_ASSIGNMENT with a
non-negative quantity argument preserve non-negativity of all assignment
record quantities. -/
theorem nonneg_preserved_step (s : BillState) (act : BillAction)
    (hs : NonnegAssignments s) (haut : IsAUT act) (hqa : ActionQuantityNonneg act) :
    NonnegAssignments (billReducer s act) := by
  cases act with
  | assignItem itemId userId q =>
    intro item' hmem' a' ha'
    obtain ⟨item, hitem, rfl⟩ := List.mem_map.mp hmem'
    unfold assignItemUpdate at ha'
    by_cases hid : (item.id == itemId) = true
    · rw [if_pos hid] at ha'
      cases hfind : item.assignments.find? (fun a => a.userId == userId) with
      | some b =>
        rw [hfind] at ha'
        simp only [List.mem_map] at ha'
        obtain ⟨a, ha, rfl⟩ := ha'
        by_cases h2 : (a.userId == userId) = true
        · simpa [h2] using hqa
        · simpa [h2] using hs item hitem a ha
      | none =>
        rw [hfind] at ha'
        simp only [List.mem_append, List.mem_singleton] at ha'
        rcases ha' with h | h
        · exact hs item hitem a' h
        · subst h
          exact hqa
    · rw [if_neg hid] at ha'
      exact hs item hitem a' ha'
  | unassignItem itemId userId =>
    intro item' hmem' a' ha'
    obtain ⟨item, hitem, rfl⟩ := List.mem_map.mp hmem'
    by_cases hid : (item.id == itemId) = true
    · rw [if_pos hid] at ha'
      simp only [List.mem_filter] at ha'
      exact hs item hitem a' ha'.1
    · rw [if_neg hid] at ha'
      exact hs item hitem a' ha'
  | toggleItemAssignment itemId userId =>
    intro item' hmem' a' ha'
    obtain ⟨item, hitem, rfl⟩ := List.mem_map.mp hmem'
    unfold toggleItemUpdate at ha'
    by_cases hid : (item.id == itemId) = true
    · rw [if_pos hid] at ha'
      cases hfind : item.assignments.find? (fun a => a.userId == userId) with
      | some b =>
        rw [hfind] at ha'
        simp only [List.mem_filter] at ha'
        exact hs item hitem a' ha'.1
      | none =>
        rw [hfind] at ha'
        simp only [List.mem_append, List.mem_singleton] at ha'
        rcases ha' with h | h
        · exact hs item hitem a' h
        · subst h
          by_cases h1 : item.quantity = 1
          · simp [h1]
          · simp only [h1, if_false]
            exact le_trans zero_le_one (le_max_left _ _)
    · rw [if_neg hid] at ha'
      exact hs item hitem a' ha'
  | setItems payload => exact haut.elim
  | addItem genId name price quantity => exact haut.elim
  | removeItem itemId => exact haut.elim
  | updateItem itemId updates => exact haut.elim
  | addUser genId name => exact haut.elim
  | addUserWithColor genId name color => exact haut.elim
  | setUsers users => exact haut.elim
  | removeUser userId => exact haut.elim
  | updateUser userId updates => exact haut.elim
  | assignAllToItem itemId => exact haut.elim
  | unassignAllFromItem itemId => exact haut.elim
  | setTax amount => exact haut.elim
  | setTip amount => exact haut.elim
  | setStatus status => exact haut.elim
  | selectItem itemId => exact haut.elim
  | reset => exact haut.elim
  | loadDemo items users taxAmount => exact haut.elim

/-- Non-negativity of record quantities is preserved along any sequence of
assign/unassign/toggle actions with non-negative quantity arguments. -/
theorem nonneg_preserved (s : BillState) (acts : List BillAction)
    (hs : NonnegAssignments s)
    (hacts : ∀ act ∈ acts, IsAUT act ∧ ActionQuantityNonneg act) :
    NonnegAssignments (applyActions s acts) := by
  induction acts generalizing s with
  | nil => exact hs
  | cons act rest ih =>
    exact ih (billReducer s act)
      (nonneg_preserved_step s act hs (hacts act (by simp)).1 (hacts act (by simp)).2)
      (fun a hA => hacts a (by simp [hA]))

/-- C6 counterexample: from a state with non-negative records, a single
ASSIGN_ITEM carrying quantity −1 (an "arbitrary numeric quantity argument",
as the claim allows) drives an item's total assigned quantity below 0. -/
theorem assign_negative_quantity_counterexample :
    (∀ act ∈ [BillAction.assignItem "i1" "u1" (-1)], IsAUT act) ∧
    ¬ (∀ item ∈ (applyActions pizzaState [BillAction.assignItem "i1" "u1" (-1)]).items,
        0 ≤ getAssignedQuantity item) := by
  constructor
  · intro act hact
    simp only [List.mem_singleton] at hact
    subst hact
    exact trivial
  · with_unfolding_all decide

/-- C6 (amended): for every starting state whose assignment records are
non-negative and every sequence of assign/unassign/toggle operations whose
quantity arguments are non-negative, every item's total assigned quantity
stays ≥ 0 in the resulting state. -/
theorem aut_nonneg_assigned (s : BillState) (acts : List BillAction)
    (hs : NonnegAssignments s)
    (hacts : ∀ act ∈ acts, IsAUT act ∧ ActionQuantityNonneg act) :
    ∀ item ∈ (applyActions s acts).items, 0 ≤ getAssignedQuantity item := by
  intro item hitem
  have h := nonneg_preserved s acts hs hacts item hitem
  rw [getAssignedQuantity_eq_sum]
  apply List.sum_nonneg
  intro x hx
  obtain ⟨a, haa, rfl⟩ := List.mem_map.mp hx
  exact h a haa

/-- Witness for C6 on a concrete assign/toggle/unassign sequence. -/
theorem aut_nonneg_assigned_witness :
    ((applyActions pizzaState
        [BillAction.assignItem "i1" "u1" 2,
         BillAction.toggleItemAssignment "i1" "u2",
         BillAction.unassignItem "i1" "u1"]).items.all
      (fun item => decide (0 ≤ getAssignedQuantity item))) = true := by
  have h := aut_nonneg_assigned pizzaState
    [BillAction.assignItem "i1" "u1" 2,
     BillAction.toggleItemAssignment "i1" "u2",
     BillAction.unassignItem "i1" "u1"]
    (by intro item hitem a ha
        simp [pizzaState] at hitem
        subst hitem
        simp [pizzaItem] at ha)
    (by intro act hact
        simp only [List.mem_cons, List.not_mem_nil, or_false] at hact
        rcases hact with rfl | rfl | rfl
        · exact ⟨trivial, by norm_num [ActionQuantityNonneg]⟩
        · exact ⟨trivial, trivial⟩
        · exact ⟨trivial, trivial⟩)
  rw [List.all_eq_true]
  intro item hitem
  exact decide_eq_true (h item hitem)

/-- One consistent action preserves referential integrity. -/
theorem integrity_preserved_step (s : BillState) (act : BillAction)
    (hs : StateRefIntegrity s) (hc : ConsistentAction s act) :
    StateRefIntegrity (billReducer s act) := by
  cases act with
  | setItems its => exact hc
  | addItem genId name price quantity =>
    intro item hi a ha
    rcases List.mem_append.mp hi with h | h
    · exact hs item h a ha
    · simp only [List.mem_singleton] at h
      subst h
      simp at ha
  | removeItem itemId =>
    intro item hi a ha
    exact hs item (List.mem_of_mem_filter hi) a ha
  | updateItem itemId upd =>
    intro item' hi a ha
    obtain ⟨item, hitem, rfl⟩ := List.mem_map.mp hi
    by_cases hid : (item.id == itemId) = true
    · rw [if_pos hid] at ha
      unfold applyItemUpdates at ha
      cases hupd : upd.assignments with
      | none =>
        rw [hupd] at ha
        simp only [Option.getD_none] at ha
        exact hs item hitem a ha
      | some l =>
        rw [hupd] at ha
        simp only [Option.getD_some] at ha
        exact hc l hupd a ha
    · rw [if_neg hid] at ha
      exact hs item hitem a ha
  | addUser genId name =>
    intro item hi a ha
    have h := hs item hi a ha
    unfold userIds at h ⊢
    simp only [billReducer]
    rw [List.map_append]
    exact List.mem_append.mpr (Or.inl h)
  | addUserWithColor genId name color =>
    intro item hi a ha
    have h := hs item hi a ha
    unfold userIds at h ⊢
    simp only [billReducer]
    rw [List.map_append]
    exact List.mem_append.mpr (Or.inl h)
  | setUsers us => exact hc
  | removeUser userId =>
    intro item' hi a ha
    obtain ⟨item, hitem, rfl⟩ := List.mem_map.mp hi
    simp only [List.mem_filter] at ha
    obtain ⟨hmem, hbool⟩ := ha
    have h := hs item hitem a hmem
    unfold userIds at h ⊢
    obtain ⟨u, hu, hid⟩ := List.mem_map.mp h
    refine List.mem_map.mpr ⟨u, List.mem_filter.mpr ⟨hu, ?_⟩, hid⟩
    have hne : a.userId ≠ userId := by simpa using hbool
    simp [hid, hne]
  | updateUser userId upd =>
    intro item hi a ha
    have h := hs item hi a ha
    unfold userIds at h ⊢
    simp only [billReducer]
    have hids : ((s.users.map (fun user =>
        if user.id == userId then applyUserUpdates user upd else user)).map (fun u => u.id))
        = s.users.map (fun u => u.id) := by
      rw [List.map_map]
      apply List.map_congr_left
      intro u _
      by_cases hcase : (u.id == userId) = true
      · have hueq : u.id = userId := beq_iff_eq.mp hcase
        have hcn : upd.id = none := hc
        simp [hueq, applyUserUpdates, hcn]
      · have hune : ¬ u.id = userId := by simpa using hcase
        simp [hune]
    rw [hids]
    exact h
  | assignItem itemId userId q =>
    intro item' hi a ha
    obtain ⟨item, hitem, rfl⟩ := List.mem_map.mp hi
    unfold assignItemUpdate at ha
    by_cases hid : (item.id == itemId) = true
    · rw [if_pos hid] at ha
      cases hfind : item.assignments.find? (fun r => r.userId == userId) with
      | some b =>
        rw [hfind] at ha
        simp only [List.mem_map] at ha
        obtain ⟨r, hr, rfl⟩ := ha
        by_cases h2 : (r.userId == userId) = true
        · simpa [h2] using hs item hitem r hr
        · simpa [h2] using hs item hitem r hr
      | none =>
        rw [hfind] at ha
        simp only [List.mem_append, List.mem_singleton] at ha
        rcases ha with h | h
        · exact hs item hitem a h
        · subst h
          exact hc
    · rw [if_neg hid] at ha
      exact hs item hitem a ha
  | unassignItem itemId userId =>
    intro item' hi a ha
    obtain ⟨item, hitem, rfl⟩ := List.mem_map.mp hi
    by_cases hid : (item.id == itemId) = true
    · rw [if_pos hid] at ha
      simp only [List.mem_filter] at ha
      exact hs item hitem a ha.1
    · rw [if_neg hid] at ha
      exact hs item hitem a ha
  | toggleItemAssignment itemId userId =>
    intro item' hi a ha
    obtain ⟨item, hitem, rfl⟩ := List.mem_map.mp hi
    unfold toggleItemUpdate at ha
    by_cases hid : (item.id == itemId) = true
    · rw [if_pos hid] at ha
      cases hfind : item.assignments.find? (fun r => r.userId == userId) with
      | some b =>
        rw [hfind] at ha
        simp only [List.mem_filter] at ha
        exact hs item hitem a ha.1
      | none =>
        rw [hfind] at ha
        simp only [List.mem_append, List.mem_singleton] at ha
        rcases ha with h | h
        · exact hs item hitem a h
        · subst h
          exact hc
    · rw [if_neg hid] at ha
      exact hs item hitem a ha
  | assignAllToItem itemId =>
    intro item' hi a ha
    obtain ⟨item, hitem, rfl⟩ := List.mem_map.mp hi
    unfold assignAllUpdateItem at ha
    by_cases hid : (item.id == itemId) = true
    · rw [if_pos hid] at ha
      by_cases hz : s.users.length = 0
      · rw [if_pos hz] at ha
        exact hs item hitem a ha
      · rw [if_neg hz] at ha
        have hmm : a.userId ∈ (assignAllAssignments s.users item).map (fun a => a.userId) :=
          List.mem_map_of_mem _ ha
        rw [assignAllAssignments_userIds] at hmm
        exact hmm
    · rw [if_neg hid] at ha
      exact hs item hitem a ha
  | unassignAllFromItem itemId =>
    intro item' hi a ha
    obtain ⟨item, hitem, rfl⟩ := List.mem_map.mp hi
    by_cases hid : (item.id == itemId) = true
    · rw [if_pos hid] at ha
      simp at ha
    · rw [if_neg hid] at ha
      exact hs item hitem a ha
  | setTax amount => exact hs
  | setTip amount => exact hs
  | setStatus status => exact hs
  | selectItem itemId => exact hs
  | reset =>
    intro item hi
    simp [billReducer, initialState] at hi
  | loadDemo its us tax => exact hc

/-- Referential integrity is preserved along any consistent trace. -/
theorem integrity_preserved (s : BillState) (acts : List BillAction)
    (hs : StateRefIntegrity s) (hacts : ConsistentTrace s acts) :
    StateRefIntegrity (applyActions s acts) := by
  induction acts generalizing s with
  | nil => exact hs
  | cons act rest ih =>
    exact ih (billReducer s act) (integrity_preserved_step s act hs hacts.1) hacts.2

/-- C7 counterexample: from the empty initial state, plain store operations
(add a user, add an item, assign it to that user, then SET_USERS with an
empty list) reach a state where an assignment record references a
participant absent from the users list — the store does not enforce the
invariant across SET_USERS. -/
theorem setUsers_breaks_ref_integrity :
    ¬ StateRefIntegrity (applyActions initialState
      [BillAction.addUserWithColor "u1" "Alice" UserColor.emerald,
       BillAction.addItem "i1" "Pizza" 500 1,
       BillAction.assignItem "i1" "u1" 1,
       BillAction.setUsers []]) := by
  simp only [StateRefIntegrity]
  with_unfolding_all decide

/-- C7 (amended): every state reached from the empty initial state by a
trace of consistent actions (payloads that neither introduce nor orphan
participant references; REMOVE_USER needs no side condition since it
cascade-deletes) satisfies referential integrity. -/
theorem consistent_reachable_ref_integrity (acts : List BillAction)
    (hacts : ConsistentTrace initialState acts) :
    StateRefIntegrity (applyActions initialState acts) := by
  apply integrity_preserved
  · intro item hi
    simp [initialState] at hi
  · exact hacts

/-- Witness for C7 on a concrete consistent trace including a user removal. -/
theorem consistent_reachable_ref_integrity_witness :
    StateRefIntegrity (applyActions initialState
      [BillAction.addUserWithColor "u1" "Alice" UserColor.emerald,
       BillAction.addUserWithColor "u2" "Bob" UserColor.blue,
       BillAction.addItem "i1" "Pizza" 500 1,
       BillAction.assignItem "i1" "u1" 1,
       BillAction.removeUser "u1"]) :=
  consistent_reachable_ref_integrity _
    ⟨trivial, trivial, trivial,
     by simp only [ConsistentAction]; with_unfolding_all decide, trivial, trivial⟩

/-- For a fully-assigned item with positive quantity, non-negative records
with duplicate-free user ids all present in a duplicate-free user list, the
users' shares of the item sum to the item's full value. -/
theorem per_item_user_share_sum (users : List User) (item : BillItem)
    (husers : (users.map (fun u => u.id)).Nodup)
    (hnodup : (item.assignments.map (fun a => a.userId)).Nodup)
    (hmemnn : ∀ a ∈ item.assignments, a.userId ∈ users.map (fun u => u.id) ∧ 0 ≤ a.quantity)
    (hfull : getAssignedQuantity item = item.quantity)
    (hpos : 0 < item.quantity) :
    (users.map (fun u => ((shareItemFor u item).map (fun si => si.shareAmount)).getD 0)).sum
      = item.price * item.quantity := by
  have hpoint : ∀ u : User, ((shareItemFor u item).map (fun si => si.shareAmount)).getD 0
      = (((item.assignments.find? (fun a => a.userId == u.id)).map
          (fun a => if 0 < a.quantity then
            item.price * item.quantity * (a.quantity / getAssignedQuantity item)
          else 0)).getD 0) := by
    intro u
    unfold shareItemFor
    cases hf : item.assignments.find? (fun a => a.userId == u.id) with
    | none => rfl
    | some a =>
      by_cases hq : 0 < a.quantity
      · simp [hq]
      · simp [hq]
  have hsum1 : (users.map
      (fun u => ((shareItemFor u item).map (fun si => si.shareAmount)).getD 0)).sum
      = (item.assignments.map (fun a => if 0 < a.quantity then
          item.price * item.quantity * (a.quantity / getAssignedQuantity item) else 0)).sum := by
    rw [List.map_congr_left (fun u _ => hpoint u)]
    exact sum_find_over_users _ users item.assignments husers hnodup
      (fun a ha => (hmemnn a ha).1)
  rw [hsum1]
  have hpt : ∀ a ∈ item.assignments,
      (if 0 < a.quantity then
        item.price * item.quantity * (a.quantity / getAssignedQuantity item) else 0)
      = (item.price * item.quantity / getAssignedQuantity item) * a.quantity := by
    intro a ha
    by_cases hq : 0 < a.quantity
    · rw [if_pos hq]
      ring
    · have hz : a.quantity = 0 := le_antisymm (not_lt.mp hq) (hmemnn a ha).2
      rw [if_neg hq, hz, mul_zero]
  rw [List.map_congr_left hpt, List.sum_map_mul_left, ← getAssignedQuantity_eq_sum, hfull]
  exact div_mul_cancel₀ _ (ne_of_gt hpos)

/-- C3 counterexample: in a state satisfying the claim's hypotheses (the
only item is exactly fully assigned with positive quantity — its records are
even non-negative, duplicate-free and reference an existing participant)
the sum of user totals misses the grand total, because the item is free:
the subtotal is 0, the tax/tip share ratio collapses to 0, and the tax of
100 is distributed to nobody. -/
theorem shares_total_misses_grandTotal_at_zero_subtotal :
    (∀ item ∈ zeroPriceState.items,
        getAssignedQuantity item = item.quantity ∧ 0 < item.quantity) ∧
    ((selectUserShares zeroPriceState).map (fun e => e.total)).sum
      ≠ selectGrandTotal zeroPriceState := by
  constructor
  · intro item hitem
    simp only [zeroPriceState, List.mem_singleton] at hitem
    subst hitem
    constructor <;> with_unfolding_all decide
  · with_unfolding_all decide

/-- C3 (amended): if every item is exactly fully assigned with positive
quantity, assignment records are non-negative with duplicate-free user ids
drawn from the (duplicate-free) participant list, and the subtotal is
positive, then the user totals sum exactly to the grand total. -/
theorem sum_user_totals_eq_grandTotal (s : BillState)
    (husers : (s.users.map (fun u => u.id)).Nodup)
    (hitems : ∀ item ∈ s.items,
      (item.assignments.map (fun a => a.userId)).Nodup ∧
      (∀ a ∈ item.assignments, a.userId ∈ s.users.map (fun u => u.id) ∧ 0 ≤ a.quantity) ∧
      getAssignedQuantity item = item.quantity ∧ 0 < item.quantity)
    (hsub : 0 < selectSubtotal s) :
    ((selectUserShares s).map (fun e => e.total)).sum = selectGrandTotal s := by
  have hfold : ∀ u : User,
      ((s.items.filterMap (shareItemFor u)).foldl (fun sum ui => sum + ui.shareAmount) 0)
      = ((s.items.filterMap (shareItemFor u)).map (fun si => si.shareAmount)).sum := by
    intro u
    simpa using foldl_add_eq (fun si : ShareItem => si.shareAmount)
      (s.items.filterMap (shareItemFor u)) 0
  have h1 : ((selectUserShares s).map (fun e => e.total)).sum
      = (s.users.map (fun u =>
          (((s.items.filterMap (shareItemFor u)).map (fun si => si.shareAmount)).sum)
            * (1 + (s.taxAmount + s.tipAmount) / selectSubtotal s))).sum := by
    unfold selectUserShares
    rw [List.map_map]
    apply congrArg List.sum
    apply List.map_congr_left
    intro u _
    simp only [Function.comp_apply, hfold u, hsub, if_true]
    ring
  have h2 : (s.users.map (fun u =>
      ((s.items.filterMap (shareItemFor u)).map (fun si => si.shareAmount)).sum)).sum
      = selectSubtotal s := by
    have hre : ∀ u : User,
        ((s.items.filterMap (shareItemFor u)).map (fun si => si.shareAmount)).sum
        = (s.items.map (fun item =>
            ((shareItemFor u item).map (fun si => si.shareAmount)).getD 0)).sum :=
      fun u => sum_filterMap_shareAmount (shareItemFor u) s.items
    rw [List.map_congr_left (fun u _ => hre u)]
    rw [sum_map_sum_comm (fun u item =>
      ((shareItemFor u item).map (fun si => si.shareAmount)).getD 0) s.users s.items]
    rw [List.map_congr_left (fun item hitem => per_item_user_share_sum s.users item husers
      (hitems item hitem).1 (hitems item hitem).2.1 (hitems item hitem).2.2.1
      (hitems item hitem).2.2.2)]
    exact (selectSubtotal_eq_sum s).symm
  rw [h1, List.sum_map_mul_right, h2]
  unfold selectGrandTotal
  field_simp
  ring

/-- Witness for C3 on the fully assigned coke state (300 + 10 + 5). -/
theorem sum_user_totals_eq_grandTotal_witness :
    ((selectUserShares cokeState).map (fun e => e.total)).sum
      = selectGrandTotal cokeState := by
  apply sum_user_totals_eq_grandTotal
  · decide
  · intro item hitem
    simp only [cokeState, List.mem_singleton] at hitem
    subst hitem
    refine ⟨by decide, ?_, by with_unfolding_all decide, by with_unfolding_all decide⟩
    intro a ha
    simp only [cokeItem, List.mem_cons, List.not_mem_nil, or_false] at ha
    rcases ha with rfl | rfl
    · exact ⟨by decide, by with_unfolding_all decide⟩
    · exact ⟨by decide, by with_unfolding_all decide⟩
  · with_unfolding_all decide

/-- C9: `selectUserShares` yields exactly one entry per user, in user-list
order; a user holding no positive assignment record on any item gets
subtotal, taxShare, tipShare and total all 0 and an empty items list. -/
theorem userShares_entry_per_user (s : BillState) :
    (selectUserShares s).map (fun e => e.user) = s.users ∧
    ∀ e ∈ selectUserShares s,
      (∀ item ∈ s.items, ∀ a ∈ item.assignments, a.userId = e.user.id → a.quantity ≤ 0) →
      e.subtotal = 0 ∧ e.taxShare = 0 ∧ e.tipShare = 0 ∧ e.total = 0 ∧ e.items = [] := by
  constructor
  · simp [selectUserShares, List.map_map, Function.comp_def]
  · intro e he hz
    obtain ⟨u, hu, hue⟩ := List.mem_map.mp he
    have huser : e.user = u := by rw [← hue]
    have hnone : ∀ item ∈ s.items, shareItemFor u item = none := by
      intro item hitem
      unfold shareItemFor
      cases hfind : item.assignments.find? (fun a => a.userId == u.id) with
      | none => rfl
      | some a =>
        have hid : a.userId = u.id := by simpa using List.find?_some hfind
        have hmem := List.mem_of_find?_eq_some hfind
        have hle : a.quantity ≤ 0 := hz item hitem a hmem (by rw [hid, huser])
        simp [not_lt.mpr hle]
    have hItems : s.items.filterMap (shareItemFor u) = [] := by
      rw [List.filterMap_eq_nil_iff]
      exact hnone
    rw [← hue]
    simp only [selectUserShares, hItems]
    simp

/-- Witness for C9 on the pizza state, whose item has no assignments. -/
theorem userShares_entry_per_user_witness :
    (selectUserShares pizzaState).map (fun e => e.user) = pizzaState.users ∧
    ∀ e ∈ selectUserShares pizzaState, e.total = 0 ∧ e.items = [] := by
  have h := userShares_entry_per_user pizzaState
  refine ⟨h.1, ?_⟩
  intro e he
  have hz := h.2 e he (by
    intro item hitem a ha
    simp [pizzaState] at hitem
    subst hitem
    simp [pizzaItem] at ha)
  exact ⟨hz.2.2.2.1, hz.2.2.2.2⟩

/-- C10: with at least one user, assign-all rebuilds the targeted item's
assignment collection from the current user list alone (one record per user,
in list order, old records discarded) and leaves every other item and every
other state field untouched. -/
theorem assignAll_replaces_assignments (s : BillState) (itemId : String)
    (hne : s.users ≠ []) :
    (billReducer s (BillAction.assignAllToItem itemId)).users = s.users ∧
    (billReducer s (BillAction.assignAllToItem itemId)).taxAmount = s.taxAmount ∧
    (billReducer s (BillAction.assignAllToItem itemId)).tipAmount = s.tipAmount ∧
    (billReducer s (BillAction.assignAllToItem itemId)).currentStatus = s.currentStatus ∧
    (billReducer s (BillAction.assignAllToItem itemId)).selectedItemId = s.selectedItemId ∧
    (billReducer s (BillAction.assignAllToItem itemId)).items
      = s.items.map (assignAllUpdateItem s.users itemId) ∧
    (∀ item, item.id ≠ itemId → assignAllUpdateItem s.users itemId item = item) ∧
    (∀ item, item.id = itemId →
      (assignAllUpdateItem s.users itemId item).id = item.id ∧
      (assignAllUpdateItem s.users itemId item).name = item.name ∧
      (assignAllUpdateItem s.users itemId item).price = item.price ∧
      (assignAllUpdateItem s.users itemId item).quantity = item.quantity ∧
      (assignAllUpdateItem s.users itemId item).assignments
        = assignAllAssignments s.users item ∧
      ((assignAllUpdateItem s.users itemId item).assignments.map (fun a => a.userId))
        = s.users.map (fun u => u.id)) := by
  have hlen : ¬ s.users.length = 0 := by simpa [List.length_eq_zero] using hne
  refine ⟨rfl, rfl, rfl, rfl, rfl, rfl, ?_, ?_⟩
  · intro item hid
    simp [assignAllUpdateItem, hid]
  · intro item hid
    have hupd : assignAllUpdateItem s.users itemId item
        = { item with assignments := assignAllAssignments s.users item } := by
      simp [assignAllUpdateItem, hid, hlen]
    rw [hupd]
    refine ⟨rfl, rfl, rfl, rfl, rfl, ?_⟩
    show (assignAllAssignments s.users item).map (fun a => a.userId) = s.users.map (fun u => u.id)
    unfold assignAllAssignments
    by_cases hbr : (s.users.length : ℚ) ≤ item.quantity
    · rw [if_pos hbr, List.map_map]
      have : ((fun a : ItemAssignment => a.userId) ∘ (fun p : ℕ × User =>
          ({ userId := p.2.id,
             quantity := ((⌊item.quantity / (s.users.length : ℚ)⌋ : ℤ) : ℚ) +
               (if (p.1 : ℚ) < jsMod item.quantity (s.users.length : ℚ) then 1 else 0) } :
               ItemAssignment)))
          = (fun u : User => u.id) ∘ Prod.snd := rfl
      rw [this, ← List.map_map, List.enum_map_snd]
    · rw [if_neg hbr, List.map_map]
      rfl

/-- Witness for C10 on the pizza state. -/
theorem assignAll_replaces_assignments_witness :
    (billReducer pizzaState (BillAction.assignAllToItem "i1")).users = pizzaState.users ∧
    ((assignAllUpdateItem pizzaState.users "i1" pizzaItem).assignments.map (fun a => a.userId))
      = pizzaState.users.map (fun u => u.id) := by
  have h := assignAll_replaces_assignments pizzaState "i1" (by decide)
  exact ⟨h.1, (h.2.2.2.2.2.2.2 _ rfl).2.2.2.2.2⟩

end BillBreak
